import Mathlib

/-!
Verification development for the checkedc libjpeg interface
(src/include/jpeglib.h).  The repository ships only the public header;
the behavioural definitions below are therefore modelled from the
specification and from the documentation comments inside jpeglib.h,
as noted on each definition.
-/

set_option maxHeartbeats 1000000

namespace JpegLib

/-! ## Constants from jpeglib.h (lines 46-63) -/

def DCTSIZE : Nat := 8

def DCTSIZE2 : Nat := 64

def NUM_QUANT_TBLS : Nat := 4

def NUM_HUFF_TBLS : Nat := 4

def MAX_COMPS_IN_SCAN : Nat := 4

def MAX_SAMP_FACTOR : Nat := 4

def C_MAX_BLOCKS_IN_MCU : Nat := 10

def D_MAX_BLOCKS_IN_MCU : Nat := 10

def JPOOL_PERMANENT : Nat := 0

def JPOOL_IMAGE : Nat := 1

def JPEG_SUSPENDED : Nat := 0

def JPEG_HEADER_OK : Nat := 1

def JPEG_HEADER_TABLES_ONLY : Nat := 2

/-! ## C4: block-grid geometry -/

/-- Modelled from the spec: the rounding helper of the missing jutils.c
(jdiv_round_up), computing the ceiling of a natural division. -/
def jdiv_round_up (a b : Nat) : Nat := (a + b - 1) / b

/-- Modelled from the spec: the geometry computation of the missing
initial_setup code (jdinput.c / jcmaster.c), which sets the per-component
size in DCT blocks from the image width, the component sampling factor
and the maximal sampling factor; dummy padding blocks are not counted,
as documented at jpeglib.h lines 138-143. -/
def width_in_blocks (image_width h_samp max_h : Nat) : Nat :=
  jdiv_round_up (image_width * h_samp) (max_h * DCTSIZE)

/-- Modelled from the spec: the same computation in the vertical
direction (height_in_blocks). -/
def height_in_blocks (image_height v_samp max_v : Nat) : Nat :=
  jdiv_round_up (image_height * v_samp) (max_v * DCTSIZE)

/-- Modelled from the spec: the MCU-column count of the missing
per_scan_setup code: the number of MCUs across the image for an
interleaved scan. -/
def MCUs_per_row (image_width max_h : Nat) : Nat :=
  jdiv_round_up image_width (max_h * DCTSIZE)

/-- Modelled from the spec: the MCU-row count of the missing
per_scan_setup code. -/
def MCU_rows_in_scan (image_height max_v : Nat) : Nat :=
  jdiv_round_up image_height (max_v * DCTSIZE)

/-- Modelled from the spec: the number of non-dummy blocks across in the
last MCU of a row (jpeglib.h line 176), as computed by the missing
per_scan_setup code: the remainder of the block width by the MCU width,
with a zero remainder meaning a full MCU. -/
def last_col_width (image_width h_samp max_h : Nat) : Nat :=
  let t := width_in_blocks image_width h_samp max_h % h_samp
  if t = 0 then h_samp else t

/-- Modelled from the spec: the number of non-dummy blocks down in the
last MCU of a column (jpeglib.h line 177). -/
def last_row_height (image_height v_samp max_v : Nat) : Nat :=
  let t := height_in_blocks image_height v_samp max_v % v_samp
  if t = 0 then v_samp else t

/-- The exact ceiling of a natural division, stated as a least element:
ceilSpec a b is the least n with a <= n * b. -/
def ceilSpec (a b n : Nat) : Prop :=
  a ≤ n * b ∧ ∀ k, a ≤ k * b → n ≤ k

lemma jdiv_round_up_le {a b : Nat} (hb : 0 < b) (k : Nat) (h : a ≤ k * b) :
    jdiv_round_up a b ≤ k := by
  unfold jdiv_round_up
  have h2 : a + b - 1 < (k + 1) * b := by
    have h3 : (k + 1) * b = k * b + b := by ring
    omega
  have := (Nat.div_lt_iff_lt_mul hb).mpr h2
  omega

lemma le_jdiv_round_up_mul {a b : Nat} (hb : 0 < b) :
    a ≤ jdiv_round_up a b * b := by
  unfold jdiv_round_up
  by_contra hcon
  push_neg at hcon
  have h1 : ((a + b - 1) / b + 1) * b ≤ a + b - 1 := by
    have h3 : ((a + b - 1) / b + 1) * b = (a + b - 1) / b * b + b := by ring
    omega
  have h2 := (Nat.le_div_iff_mul_le hb).mpr h1
  omega

/-- jdiv_round_up is exactly the ceiling of the division. -/
lemma jdiv_round_up_ceilSpec {a b : Nat} (hb : 0 < b) :
    ceilSpec a b (jdiv_round_up a b) :=
  ⟨le_jdiv_round_up_mul hb, fun k hk => jdiv_round_up_le hb k hk⟩

/-- In one dimension: the block count lies in the last MCU column, and the
remainder-based last_col_width computation counts exactly the genuine
blocks of the final MCU column. -/
lemma geom_dim (W h m : Nat) (hW : 0 < W) (hh : 0 < h) (hm : h ≤ m) :
    width_in_blocks W h m ≤ MCUs_per_row W m * h ∧
    (MCUs_per_row W m - 1) * h < width_in_blocks W h m ∧
    last_col_width W h m
      = width_in_blocks W h m - (MCUs_per_row W m - 1) * h := by
  have hb : 0 < m * DCTSIZE := by
    have : 0 < m := lt_of_lt_of_le hh hm
    simp [DCTSIZE]
    omega
  set b := m * DCTSIZE with hbdef
  set M := MCUs_per_row W m with hM
  set wib := width_in_blocks W h m with hwib
  have hWM : W ≤ M * b := le_jdiv_round_up_mul hb
  have hWwib : W * h ≤ wib * b := le_jdiv_round_up_mul hb
  -- upper bound: wib <= M * h
  have hup : wib ≤ M * h := by
    apply jdiv_round_up_le hb
    have h1 : W * h ≤ (M * b) * h := Nat.mul_le_mul_right h hWM
    have h2 : (M * b) * h = (M * h) * b := by ring
    omega
  -- M >= 1
  have hM1 : 1 ≤ M := by
    by_contra hcon
    push_neg at hcon
    interval_cases M
    omega
  -- W > (M-1) * b
  have hMeq : M = jdiv_round_up W b := rfl
  have hWlow : (M - 1) * b + 1 ≤ W := by
    by_contra hcon
    push_neg at hcon
    have := @jdiv_round_up_le W b hb (M - 1) (by omega)
    omega
  -- lower bound: (M-1) * h < wib
  have hlow : (M - 1) * h < wib := by
    by_contra hcon
    push_neg at hcon
    have h1 : ((M - 1) * b + 1) * h ≤ W * h := Nat.mul_le_mul_right h hWlow
    have e1 : ((M - 1) * b + 1) * h = (M - 1) * b * h + h := by ring
    have h2 : wib * b ≤ ((M - 1) * h) * b := Nat.mul_le_mul_right b hcon
    have e2 : ((M - 1) * h) * b = (M - 1) * b * h := by ring
    omega
  refine ⟨hup, hlow, ?_⟩
  -- the remainder computation
  have hdecomp : wib = (M - 1) * h + (wib - (M - 1) * h) := by omega
  set g := wib - (M - 1) * h with hg
  have hg1 : 1 ≤ g := by omega
  have hgh : g ≤ h := by
    have e2 : (M - 1) * h + h = M * h := by
      have e3 : (M - 1) + 1 = M := by omega
      calc (M - 1) * h + h = ((M - 1) + 1) * h := by ring
        _ = M * h := by rw [e3]
    omega
  have hmod : wib % h = g % h := by
    conv_lhs => rw [hdecomp]
    have e : (M - 1) * h + g = g + (M - 1) * h := by ring
    rw [e, Nat.add_mul_mod_self_right]
  unfold last_col_width
  rw [← hwib, hmod]
  rcases Nat.lt_or_ge g h with hlt | hge
  · have : g % h = g := Nat.mod_eq_of_lt hlt
    simp [this]
    omega
  · have hgeq : g = h := by omega
    simp [hgeq]

/-- Claim C4: for every valid combination of image dimensions and
per-component sampling factors, width_in_blocks and height_in_blocks
equal the ceiling of image_dimension * sampling_factor /
max_sampling_factor / DCTSIZE (excluding dummy padding blocks), and
last_col_width / last_row_height count exactly the genuine non-dummy
blocks in the final MCU column / row, namely the total block count minus
the blocks of all full MCU columns / rows before the last one. -/
theorem C4_block_geometry (W H h v mh mv : Nat)
    (hW : 0 < W) (hH : 0 < H) (hh : 0 < h) (hv : 0 < v)
    (hhm : h ≤ mh) (hvm : v ≤ mv) :
    ceilSpec (W * h) (mh * DCTSIZE) (width_in_blocks W h mh) ∧
    ceilSpec (H * v) (mv * DCTSIZE) (height_in_blocks H v mv) ∧
    width_in_blocks W h mh ≤ MCUs_per_row W mh * h ∧
    (MCUs_per_row W mh - 1) * h < width_in_blocks W h mh ∧
    last_col_width W h mh
      = width_in_blocks W h mh - (MCUs_per_row W mh - 1) * h ∧
    height_in_blocks H v mv ≤ MCU_rows_in_scan H mv * v ∧
    (MCU_rows_in_scan H mv - 1) * v < height_in_blocks H v mv ∧
    last_row_height H v mv
      = height_in_blocks H v mv - (MCU_rows_in_scan H mv - 1) * v := by
  have hbh : 0 < mh * DCTSIZE := by
    have : 0 < mh := lt_of_lt_of_le hh hhm
    simp only [DCTSIZE]
    omega
  have hbv : 0 < mv * DCTSIZE := by
    have : 0 < mv := lt_of_lt_of_le hv hvm
    simp only [DCTSIZE]
    omega
  obtain ⟨w1, w2, w3⟩ := geom_dim W h mh hW hh hhm
  obtain ⟨v1, v2, v3⟩ := geom_dim H v mv hH hv hvm
  exact ⟨jdiv_round_up_ceilSpec hbh, jdiv_round_up_ceilSpec hbv,
    w1, w2, w3, v1, v2, v3⟩

/-- Witness for C4 at a concrete geometry: a 17 x 33 image, component
sampling factors 2 x 1, maximal sampling factors 2 x 2. -/
theorem C4_block_geometry_witness :
    (0 < 17 ∧ 0 < 33 ∧ 0 < 2 ∧ 0 < 1 ∧ 2 ≤ 2 ∧ 1 ≤ 2) ∧
    (ceilSpec (17 * 2) (2 * DCTSIZE) (width_in_blocks 17 2 2) ∧
     ceilSpec (33 * 1) (2 * DCTSIZE) (height_in_blocks 33 1 2) ∧
     width_in_blocks 17 2 2 ≤ MCUs_per_row 17 2 * 2 ∧
     (MCUs_per_row 17 2 - 1) * 2 < width_in_blocks 17 2 2 ∧
     last_col_width 17 2 2
       = width_in_blocks 17 2 2 - (MCUs_per_row 17 2 - 1) * 2 ∧
     height_in_blocks 33 1 2 ≤ MCU_rows_in_scan 33 2 * 1 ∧
     (MCU_rows_in_scan 33 2 - 1) * 1 < height_in_blocks 33 1 2 ∧
     last_row_height 33 1 2
       = height_in_blocks 33 1 2 - (MCU_rows_in_scan 33 2 - 1) * 1) :=
  ⟨⟨by decide, by decide, by decide, by decide, by decide, by decide⟩,
   C4_block_geometry 17 33 2 1 2 2 (by decide) (by decide) (by decide)
     (by decide) (by decide) (by decide)⟩

/-! ## C1: progressive refinement state (coef_bits) -/

/-- Modelled from the spec: the zigzag-to-natural position table of the
missing jutils.c (jpeg_natural_order); entry j is the natural-order
position of the coefficient at zigzag position j. -/
def jpeg_natural_order : List Nat :=
  [0, 1, 8, 16, 9, 2, 3, 10,
   17, 24, 32, 25, 18, 11, 4, 5,
   12, 19, 26, 33, 40, 48, 41, 34,
   27, 20, 13, 6, 7, 14, 21, 28,
   35, 42, 49, 56, 57, 50, 43, 36,
   29, 22, 15, 23, 30, 37, 44, 51,
   58, 59, 52, 45, 38, 31, 39, 46,
   53, 60, 61, 54, 47, 55, 62, 63]

def naturalOrder (j : Nat) : Nat := jpeg_natural_order.getD j 0

/-- A scan descriptor, after jpeg_scan_info (jpeglib.h lines 192-197):
the participating component indexes and the progressive spectral
selection and successive approximation parameters. -/
structure jpeg_scan_info where
  component_index : List Nat
  Ss : Nat
  Se : Nat
  Ah : Nat
  Al : Nat

/-- Modelled from the spec: the per-scan update of coef_bits performed
by the missing jdinput.c scan-latching code, as documented at jpeglib.h
lines 565-572: for every component of the scan, the entries at zigzag
coefficient positions Ss..Se receive the point-transform value Al of
the scan. -/
def coef_bits_update (s : jpeg_scan_info) (cb : Nat → Nat → Int) :
    Nat → Nat → Int :=
  fun c i =>
    if c ∈ s.component_index ∧ s.Ss ≤ i ∧ i ≤ s.Se then (s.Al : Int)
    else cb c i

/-- Initial coef_bits content: -1 everywhere, meaning that no data has
been received yet (jpeglib.h line 567). -/
def coef_bits_init : Nat → Nat → Int := fun _ _ => -1

/-- The coef_bits content after a list of progressive scans has been
consumed, in input order. -/
def coef_bits_after (scans : List jpeg_scan_info) : Nat → Nat → Int :=
  scans.foldl (fun cb s => coef_bits_update s cb) coef_bits_init

/-- Modelled from the spec: allocation of the refinement state by the
missing jdinput.c startup code; coef_bits is allocated exactly when the
datastream is progressive, and is NULL otherwise (jpeglib.h line 570). -/
def coef_bits_alloc (progressive_mode : Bool)
    (scans : List jpeg_scan_info) : Option (Nat → Nat → Int) :=
  if progressive_mode then some (coef_bits_after scans) else none

/-- The refinement state as worded by the spec sentence under test:
indexed by NATURAL coefficient order, so a scan with spectral range
Ss..Se writes the entries at positions naturalOrder j for j in Ss..Se.
This definition follows the claim, not the source, and is compared
against coef_bits_after. -/
def coef_bits_natural_claim (scans : List jpeg_scan_info) :
    Nat → Nat → Int :=
  scans.foldl
    (fun cb s => fun c i =>
      if c ∈ s.component_index ∧
          ∃ j < DCTSIZE2, s.Ss ≤ j ∧ j ≤ s.Se ∧ naturalOrder j = i then
        (s.Al : Int)
      else cb c i)
    coef_bits_init

/-- The successive-approximation bit-plane of the most recent scan that
wrote zigzag coefficient position i of component c, or -1 when no scan
wrote it. -/
def last_scan_Al (scans : List jpeg_scan_info) (c i : Nat) : Int :=
  match scans.reverse.find?
      (fun s => decide (c ∈ s.component_index) && decide (s.Ss ≤ i) &&
        decide (i ≤ s.Se)) with
  | some s => (s.Al : Int)
  | none => -1

lemma coef_bits_after_concat (l : List jpeg_scan_info)
    (s : jpeg_scan_info) :
    coef_bits_after (l ++ [s]) = coef_bits_update s (coef_bits_after l) := by
  simp [coef_bits_after, List.foldl_append]

lemma last_scan_Al_concat (l : List jpeg_scan_info) (s : jpeg_scan_info)
    (c i : Nat) :
    last_scan_Al (l ++ [s]) c i
      = if c ∈ s.component_index ∧ s.Ss ≤ i ∧ i ≤ s.Se then (s.Al : Int)
        else last_scan_Al l c i := by
  unfold last_scan_Al
  rw [List.reverse_append]
  simp only [List.reverse_singleton, List.singleton_append]
  by_cases h : c ∈ s.component_index ∧ s.Ss ≤ i ∧ i ≤ s.Se
  · rw [List.find?_cons_of_pos]
    · simp [h]
    · simp [h.1, h.2.1, h.2.2]
  · rw [List.find?_cons_of_neg]
    · simp [h]
    · simp only [Bool.and_eq_true, decide_eq_true_eq]
      tauto

/-- Claim C1, amended: the refinement state coef_bits exists (is
non-null) exactly when the datastream is progressive, and its entry for
component c at ZIGZAG coefficient position i equals the
successive-approximation bit-plane Al of the most recent scan that
wrote that coefficient, or the sentinel -1 when no scan touched it. -/
theorem C1_coef_bits_refinement_state (progressive : Bool)
    (scans : List jpeg_scan_info) (c i : Nat) :
    (coef_bits_alloc progressive scans).isSome = progressive ∧
    coef_bits_after scans c i = last_scan_Al scans c i := by
  constructor
  · cases progressive <;> simp [coef_bits_alloc]
  · induction scans using List.reverseRecOn with
    | nil => simp [coef_bits_after, last_scan_Al, coef_bits_init]
    | append_singleton l s ih =>
        rw [coef_bits_after_concat, last_scan_Al_concat]
        unfold coef_bits_update
        by_cases h : c ∈ s.component_index ∧ s.Ss ≤ i ∧ i ≤ s.Se <;>
          simp [h, ih]

/-- Counterexample to C1 as stated: under natural-order indexing the
claim disagrees with the source refinement state.  A progressive scan
of component 0 with spectral range Ss = Se = 2 and Al = 0 makes the
source coef_bits entry at index 2 equal to 0 (zigzag position 2 was
written), while the natural-order reading of the spec leaves index 2 at
the untouched sentinel -1, because the coefficient at natural position
2 sits at zigzag position 5, outside the scan range. -/
theorem C1_counterexample_natural_vs_zigzag :
    coef_bits_after [⟨[0], 2, 2, 1, 0⟩] 0 2 = 0 ∧
    coef_bits_natural_claim [⟨[0], 2, 2, 1, 0⟩] 0 2 = -1 ∧
    coef_bits_after [⟨[0], 2, 2, 1, 0⟩] 0 2
      ≠ coef_bits_natural_claim [⟨[0], 2, 2, 1, 0⟩] 0 2 := by
  refine ⟨by decide, by decide, by decide⟩

/-! ## C2: virtual array round-trip through spill storage -/

/-- Modelled from the spec: the state of a virtual block/sample array of
the missing jmemmgr.c (jvirt_barray_control / jvirt_sarray_control,
requested through jpeg_memory_mgr at jpeglib.h lines 833-843): a
resident window of rows_in_mem rows starting at cur_start_row, spill
(backing-store) content for every logical row, and a dirty flag
recording whether the resident window holds writes not yet spilled.
Row content is an arbitrary type so that preservation is bit-exact. -/
structure jvirt_barray (α : Type) where
  rows_in_mem : Nat
  cur_start_row : Nat
  mem : Nat → α
  backing : Nat → α
  dirty : Bool

namespace jvirt_barray

variable {α : Type}

/-- A clean window agrees with the backing store. -/
def wf (v : jvirt_barray α) : Prop :=
  v.dirty = false →
    ∀ i, i < v.rows_in_mem → v.mem i = v.backing (v.cur_start_row + i)

/-- Modelled from the spec: the write-back half of the missing
do_barray_io: dirty resident rows are flushed to the backing store. -/
def do_barray_io (v : jvirt_barray α) : jvirt_barray α :=
  { v with
    backing := fun r =>
      if v.dirty = true ∧ v.cur_start_row ≤ r ∧
          r < v.cur_start_row + v.rows_in_mem then
        v.mem (r - v.cur_start_row)
      else v.backing r,
    dirty := false }

/-- Modelled from the spec: access_virt_barray of the missing jmemmgr.c.
If the requested row window already lies inside the resident window, no
I/O happens; otherwise the dirty rows are written back and the window is
reloaded from the backing store starting at the requested row.  A
writable access marks the window dirty. -/
def access_virt_barray (v : jvirt_barray α) (start_row num_rows : Nat)
    (writable : Bool) : jvirt_barray α :=
  if v.cur_start_row ≤ start_row ∧
      start_row + num_rows ≤ v.cur_start_row + v.rows_in_mem then
    { v with dirty := v.dirty || writable }
  else
    let v1 := do_barray_io v
    { v1 with
      cur_start_row := start_row,
      mem := fun i => v1.backing (start_row + i),
      dirty := writable }

/-- Read logical row r through the resident window. -/
def readRow (v : jvirt_barray α) (r : Nat) : α :=
  v.mem (r - v.cur_start_row)

/-- Write logical row r through the resident window. -/
def writeRow (v : jvirt_barray α) (r : Nat) (x : α) : jvirt_barray α :=
  { v with mem := fun i => if i = r - v.cur_start_row then x else v.mem i }

/-- Logical row r lies in the resident window. -/
def inWindow (v : jvirt_barray α) (r : Nat) : Prop :=
  v.cur_start_row ≤ r ∧ r < v.cur_start_row + v.rows_in_mem

/-- The authoritative content of logical row r: the resident copy when
resident, the spilled copy otherwise. -/
def logicalRow (v : jvirt_barray α) (r : Nat) : α :=
  if v.cur_start_row ≤ r ∧ r < v.cur_start_row + v.rows_in_mem then
    v.mem (r - v.cur_start_row)
  else v.backing r

lemma access_rows_in_mem (v : jvirt_barray α) (s n : Nat) (w : Bool) :
    (access_virt_barray v s n w).rows_in_mem = v.rows_in_mem := by
  unfold access_virt_barray do_barray_io
  split <;> rfl

lemma access_cur_le_start (v : jvirt_barray α) (s n : Nat) (w : Bool) :
    (access_virt_barray v s n w).cur_start_row ≤ s := by
  unfold access_virt_barray do_barray_io
  split
  · next h => exact h.1
  · exact le_refl s

lemma access_inWindow (v : jvirt_barray α) (s n : Nat) (w : Bool)
    (r : Nat) (hn : n ≤ v.rows_in_mem) (h1 : s ≤ r) (h2 : r < s + n) :
    inWindow (access_virt_barray v s n w) r := by
  unfold access_virt_barray do_barray_io inWindow
  split
  · next h =>
      refine ⟨?_, ?_⟩ <;> simp only [] <;> omega
  · refine ⟨?_, ?_⟩ <;> simp only [] <;> omega

lemma access_writable_dirty (v : jvirt_barray α) (s n : Nat) :
    (access_virt_barray v s n true).dirty = true := by
  unfold access_virt_barray do_barray_io
  split <;> simp

lemma wf_access (v : jvirt_barray α) (s n : Nat) (w : Bool)
    (hwf : wf v) : wf (access_virt_barray v s n w) := by
  unfold access_virt_barray do_barray_io wf
  split
  · intro hd i hi
    simp only [Bool.or_eq_false_iff] at hd
    exact hwf hd.1 i hi
  · intro _ i _
    rfl

lemma logicalRow_access (v : jvirt_barray α) (s n : Nat) (w : Bool)
    (hwf : wf v) (r : Nat) :
    logicalRow (access_virt_barray v s n w) r = logicalRow v r := by
  unfold access_virt_barray do_barray_io logicalRow
  split
  · rfl
  · simp only
    have hshift : ∀ hr : s ≤ r, s + (r - s) = r := by omega
    by_cases hin : s ≤ r ∧ r < s + v.rows_in_mem
    · rw [if_pos hin, hshift hin.1]
      by_cases hold : v.dirty = true ∧ v.cur_start_row ≤ r ∧
          r < v.cur_start_row + v.rows_in_mem
      · rw [if_pos hold, if_pos ⟨hold.2.1, hold.2.2⟩]
      · rw [if_neg hold]
        by_cases hold2 : v.cur_start_row ≤ r ∧
            r < v.cur_start_row + v.rows_in_mem
        · rw [if_pos hold2]
          have hd : v.dirty = false := by
            cases hdv : v.dirty
            · rfl
            · exact absurd ⟨hdv, hold2.1, hold2.2⟩ hold
          have := hwf hd (r - v.cur_start_row) (by omega)
          rw [this]
          congr 1
          omega
        · rw [if_neg hold2]
    · rw [if_neg hin]
      by_cases hold : v.dirty = true ∧ v.cur_start_row ≤ r ∧
          r < v.cur_start_row + v.rows_in_mem
      · rw [if_pos hold, if_pos ⟨hold.2.1, hold.2.2⟩]
      · rw [if_neg hold]
        by_cases hold2 : v.cur_start_row ≤ r ∧
            r < v.cur_start_row + v.rows_in_mem
        · rw [if_pos hold2]
          have hd : v.dirty = false := by
            cases hdv : v.dirty
            · rfl
            · exact absurd ⟨hdv, hold2.1, hold2.2⟩ hold
          have := hwf hd (r - v.cur_start_row) (by omega)
          rw [this]
          congr 1
          omega
        · rw [if_neg hold2]

lemma logicalRow_writeRow (v : jvirt_barray α) (r : Nat) (x : α)
    (hin : inWindow v r) : logicalRow (writeRow v r x) r = x := by
  unfold inWindow at hin
  unfold writeRow logicalRow
  simp only []
  rw [if_pos hin]
  simp

lemma writeRow_dirty (v : jvirt_barray α) (r : Nat) (x : α) :
    (writeRow v r x).dirty = v.dirty := rfl

lemma readRow_eq_logicalRow (v : jvirt_barray α) (r : Nat)
    (hin : inWindow v r) : readRow v r = logicalRow v r := by
  unfold inWindow at hin
  unfold readRow logicalRow
  rw [if_pos hin]

end jvirt_barray

open jvirt_barray in
/-- Claim C2: virtual array round-trip.  Writing row r inside a window
starting at s1, then accessing a disjoint window at s2 beyond the
resident range (which evicts the written row: it is no longer resident
afterwards), then re-accessing the original window, reads back exactly
the value written; the swap through spill storage never alters stored
rows. -/
theorem C2_virt_array_roundtrip {α : Type} (v : jvirt_barray α)
    (s1 n1 r s2 n2 : Nat) (x : α)
    (hwf : wf v)
    (hn1 : 0 < n1) (hn1R : n1 ≤ v.rows_in_mem)
    (hr1 : s1 ≤ r) (hr2 : r < s1 + n1)
    (hs2 : s1 + v.rows_in_mem ≤ s2) (hn2 : 0 < n2) :
    readRow
      (access_virt_barray
        (access_virt_barray
          (writeRow (access_virt_barray v s1 n1 true) r x)
          s2 n2 false)
        s1 n1 false) r = x ∧
    ¬ inWindow
        (access_virt_barray
          (writeRow (access_virt_barray v s1 n1 true) r x)
          s2 n2 false) r := by
  set v1 := access_virt_barray v s1 n1 true with hv1
  set v2 := writeRow v1 r x with hv2
  set v3 := access_virt_barray v2 s2 n2 false with hv3
  set v4 := access_virt_barray v3 s1 n1 false with hv4
  have hR1 : v1.rows_in_mem = v.rows_in_mem := access_rows_in_mem ..
  have hR2 : v2.rows_in_mem = v.rows_in_mem := hR1
  have hR3 : v3.rows_in_mem = v.rows_in_mem := by
    rw [hv3, access_rows_in_mem, hR2]
  have hin1 : inWindow v1 r := access_inWindow v s1 n1 true r hn1R hr1 hr2
  have hd1 : v1.dirty = true := access_writable_dirty ..
  have hd2 : v2.dirty = true := hd1
  have hwf2 : wf v2 := by
    intro hd
    rw [hd2] at hd
    exact absurd hd (by simp)
  have hwf3 : wf v3 := wf_access _ _ _ _ hwf2
  have hlog2 : logicalRow v2 r = x := logicalRow_writeRow v1 r x hin1
  have hlog3 : logicalRow v3 r = logicalRow v2 r :=
    logicalRow_access v2 s2 n2 false hwf2 r
  have hlog4 : logicalRow v4 r = logicalRow v3 r :=
    logicalRow_access v3 s1 n1 false hwf3 r
  have hin4 : inWindow v4 r := by
    apply access_inWindow v3 s1 n1 false r _ hr1 hr2
    rw [hR3]
    exact hn1R
  have hcur3 : v3.cur_start_row ≤ s2 := access_cur_le_start ..
  constructor
  · rw [readRow_eq_logicalRow v4 r hin4, hlog4, hlog3, hlog2]
  · intro hin3
    have hcur2 : v2.cur_start_row ≤ s1 := access_cur_le_start v s1 n1 true
    -- the access at s2 must have swapped: the requested window cannot
    -- fit in the window around s1
    have : v3.cur_start_row = s2 := by
      rw [hv3]
      unfold access_virt_barray do_barray_io
      split
      · next h =>
          exfalso
          have := h.2
          omega
      · rfl
    unfold inWindow at hin3
    rw [this] at hin3
    omega

/-- Witness for C2 at a concrete instance: a two-row resident window
over integers, value 7 written to row 0, evicted by a window at row 2,
and read back. -/
theorem C2_virt_array_roundtrip_witness :
    (jvirt_barray.wf
        (jvirt_barray.mk 2 0 (fun _ => (0 : Int)) (fun _ => 0) false) ∧
     0 < 1 ∧ 1 ≤ 2 ∧ 0 ≤ 0 ∧ 0 < 0 + 1 ∧ 0 + 2 ≤ 2 ∧ 0 < 1) ∧
    (jvirt_barray.readRow
      (jvirt_barray.access_virt_barray
        (jvirt_barray.access_virt_barray
          (jvirt_barray.writeRow
            (jvirt_barray.access_virt_barray
              (jvirt_barray.mk 2 0 (fun _ => (0 : Int)) (fun _ => 0) false)
              0 1 true) 0 7)
          2 1 false)
        0 1 false) 0 = 7 ∧
     ¬ jvirt_barray.inWindow
         (jvirt_barray.access_virt_barray
           (jvirt_barray.writeRow
             (jvirt_barray.access_virt_barray
               (jvirt_barray.mk 2 0 (fun _ => (0 : Int)) (fun _ => 0) false)
               0 1 true) 0 7)
           2 1 false) 0) :=
  ⟨⟨fun _ i _ => rfl, by decide, by decide, by decide, by decide,
      by decide, by decide⟩,
   C2_virt_array_roundtrip
     (jvirt_barray.mk 2 0 (fun _ => (0 : Int)) (fun _ => 0) false)
     0 1 0 2 1 7 (fun _ i _ => rfl) (by decide) (by decide) (by decide)
     (by decide) (by decide) (by decide)⟩

/-! ## C3: suspension transparency -/

/-- Modelled from the spec: the greedy consumption loop of the missing
jdinput.c / jdcoefct.c consume_input path.  Given the byte cost of each
successive iMCU-row unit of the datastream and the number of input
bytes available, as many whole units as the budget allows are
processed; a unit whose cost exceeds the remaining bytes causes a
suspension (processing stops without consuming it). -/
def procCount : List Nat → Nat → Nat
  | [], _ => 0
  | c :: cs, b => if c ≤ b then procCount cs (b - c) + 1 else 0

lemma procCount_consumed_le (cs : List Nat) (b : Nat) :
    ((cs.take (procCount cs b)).sum) ≤ b := by
  induction cs generalizing b with
  | nil => simp [procCount]
  | cons c cs ih =>
      by_cases h : c ≤ b
      · simp only [procCount, if_pos h, List.take_succ_cons, List.sum_cons]
        have := ih (b - c)
        omega
      · simp [procCount, h]

/-- Splitting the byte budget: consuming with budget b1 + b2 equals
consuming with b1 and then resuming the remaining units with the
leftover bytes plus b2. -/
lemma procCount_add (cs : List Nat) (b1 b2 : Nat) :
    procCount cs (b1 + b2)
      = procCount cs b1 +
        procCount (cs.drop (procCount cs b1))
          (b1 - (cs.take (procCount cs b1)).sum + b2) := by
  induction cs generalizing b1 with
  | nil => simp [procCount]
  | cons c cs ih =>
      by_cases h : c ≤ b1
      · have h2 : c ≤ b1 + b2 := le_trans h (Nat.le_add_right _ _)
        simp only [procCount, if_pos h, if_pos h2, List.take_succ_cons,
          List.sum_cons, List.drop_succ_cons]
        have e1 : b1 + b2 - c = b1 - c + b2 := by omega
        rw [e1, ih (b1 - c)]
        have e2 : b1 - c - (cs.take (procCount cs (b1 - c))).sum
            = b1 - (c + (cs.take (procCount cs (b1 - c))).sum) := by
          omega
        rw [e2]
        omega
      · simp only [procCount, if_neg h, List.take_zero, List.sum_nil,
          List.drop_zero, Nat.zero_add, Nat.sub_zero]

/-- The decoder state reached by one uninterrupted invocation over a
total byte budget: number of units processed, leftover bytes, and the
decoded blocks in order. -/
def wholeState {α : Type} (units : List (Nat × α)) (budget : Nat) :
    Nat × Nat × List α :=
  let cs := units.map Prod.fst
  let k := procCount cs budget
  (k, budget - (cs.take k).sum, (units.take k).map Prod.snd)

/-- Modelled from the spec: one re-invocation after a suspension.  The
state carries the progress counters (units completed, unconsumed
bytes); the new chunk of input is appended to the unconsumed bytes and
processing resumes at the first unprocessed unit. -/
def resumeEmit {α : Type} (units : List (Nat × α))
    (st : Nat × Nat × List α) (chunk : Nat) : Nat × Nat × List α :=
  let cs := (units.map Prod.fst).drop st.1
  let b := st.2.1 + chunk
  let k := procCount cs b
  (st.1 + k, b - (cs.take k).sum,
   st.2.2 ++ ((units.drop st.1).take k).map Prod.snd)

/-- The decoder state after feeding the input in successive chunks,
suspending between chunks. -/
def decodeChunked {α : Type} (units : List (Nat × α))
    (chunks : List Nat) : Nat × Nat × List α :=
  chunks.foldl (resumeEmit units) (0, 0, [])

lemma resumeEmit_wholeState {α : Type} (units : List (Nat × α))
    (B a : Nat) :
    resumeEmit units (wholeState units B) a = wholeState units (B + a) := by
  unfold resumeEmit wholeState
  simp only []
  set cs := units.map Prod.fst with hcs
  set n := procCount cs B with hn
  set S := (cs.take n).sum with hS
  set k := procCount (cs.drop n) (B - S + a) with hk
  have hadd : procCount cs (B + a) = n + k := procCount_add cs B a
  have hSB : S ≤ B := procCount_consumed_le cs B
  refine Prod.ext ?_ (Prod.ext ?_ ?_)
  · simp only [hadd]
  · simp only [hadd]
    have htake : cs.take (n + k) = cs.take n ++ (cs.drop n).take k :=
      (List.take_add cs n k).symm ▸ rfl
    rw [htake, List.sum_append]
    omega
  · simp only [hadd]
    have htake : units.take (n + k) = units.take n ++ (units.drop n).take k :=
      (List.take_add units n k).symm ▸ rfl
    rw [htake, List.map_append]

lemma foldl_resumeEmit {α : Type} (units : List (Nat × α))
    (chunks : List Nat) :
    ∀ B, chunks.foldl (resumeEmit units) (wholeState units B)
      = wholeState units (B + chunks.sum) := by
  induction chunks with
  | nil => intro B; simp
  | cons a rest ih =>
      intro B
      simp only [List.foldl_cons, List.sum_cons]
      rw [resumeEmit_wholeState, ih (B + a)]
      congr 1
      omega

lemma resumeEmit_zero_state {α : Type} (units : List (Nat × α))
    (a : Nat) :
    resumeEmit units (0, 0, []) a = wholeState units a := by
  unfold resumeEmit wholeState
  simp

/-- The input-side progress counters of jpeg_decompress_struct
(jpeglib.h lines 552-556) determined by the number of completed iMCU
rows: the scan number is the count of fully consumed scans and
input_iMCU_row the progress within the current scan, given each scan
total number of iMCU rows. -/
def input_counters : List Nat → Nat → Nat × Nat
  | [], n => (0, n)
  | r :: rs, n =>
      if n < r then (0, n)
      else
        let p := input_counters rs (n - r)
        (p.1 + 1, p.2)

/-- Claim C3: suspension is transparent.  Decoding with any nonempty
sequence of byte chunks (each re-invocation resuming from the suspended
state) reaches exactly the state of one invocation with the whole
buffer: same number of processed units, same leftover bytes, and the
same decoded blocks in order, so no block is processed twice or
skipped; consequently the progress counters (input scan number and
input_iMCU_row) agree with the whole-buffer run. -/
theorem C3_suspension_transparent {α : Type} (units : List (Nat × α))
    (scanRows : List Nat) (chunks : List Nat) (hne : chunks ≠ []) :
    decodeChunked units chunks = wholeState units chunks.sum ∧
    input_counters scanRows (decodeChunked units chunks).1
      = input_counters scanRows
          (procCount (units.map Prod.fst) chunks.sum) := by
  have hmain : decodeChunked units chunks = wholeState units chunks.sum := by
    cases chunks with
    | nil => exact absurd rfl hne
    | cons a rest =>
        unfold decodeChunked
        simp only [List.foldl_cons]
        rw [resumeEmit_zero_state, foldl_resumeEmit]
        simp [List.sum_cons]
  refine ⟨hmain, ?_⟩
  rw [hmain]
  rfl

/-- Witness for C3: a three-unit stream with byte costs 2, 3, 1 fed one
byte at a time. -/
theorem C3_suspension_transparent_witness :
    ([1, 1, 1, 1, 1, 1] : List Nat) ≠ [] ∧
    (decodeChunked [(2, 10), (3, 20), (1, 30)] [1, 1, 1, 1, 1, 1]
        = wholeState [(2, 10), (3, 20), (1, 30)]
            ([1, 1, 1, 1, 1, 1] : List Nat).sum ∧
     input_counters [2, 1]
        (decodeChunked [(2, 10), (3, 20), (1, 30)] [1, 1, 1, 1, 1, 1]).1
       = input_counters [2, 1]
          (procCount ([(2, 10), (3, 20), (1, 30)].map Prod.fst)
            ([1, 1, 1, 1, 1, 1] : List Nat).sum)) :=
  ⟨by decide,
   C3_suspension_transparent [(2, (10 : Nat)), (3, 20), (1, 30)] [2, 1]
     [1, 1, 1, 1, 1, 1] (by decide)⟩

/-! ## C5: output progress never precedes input progress -/

/-- The progress counters of a buffered-image decompressor
(jpeglib.h lines 552-563). -/
structure BufferedImageState where
  input_scan_number : Nat
  input_iMCU_row : Nat
  output_scan_number : Nat
  output_iMCU_row : Nat

/-- Modelled from the spec: the operations that move the progress
counters of the missing jdinput.c / jdcoefct.c / jdapistd.c code in
buffered-image mode.  Input consumption completes an iMCU row or
advances to the next scan (resetting the row counter); the output side
advances one iMCU row only when it stays behind the input side, and
jpeg_start_output selects an output scan no later than the input
scan. -/
inductive BufStep : BufferedImageState → BufferedImageState → Prop
  | consume_row (s : BufferedImageState) :
      BufStep s { s with input_iMCU_row := s.input_iMCU_row + 1 }
  | consume_sos (s : BufferedImageState) :
      BufStep s { s with input_scan_number := s.input_scan_number + 1,
                         input_iMCU_row := 0 }
  | output_row (s : BufferedImageState)
      (h : s.output_scan_number < s.input_scan_number ∨
        (s.output_scan_number = s.input_scan_number ∧
          s.output_iMCU_row < s.input_iMCU_row)) :
      BufStep s { s with output_iMCU_row := s.output_iMCU_row + 1 }
  | start_output (s : BufferedImageState) (k : Nat)
      (h : k ≤ s.input_scan_number) :
      BufStep s { s with output_scan_number := k, output_iMCU_row := 0 }

/-- The state after jpeg_read_header in buffered-image mode: nothing
consumed, nothing output. -/
def bufInit : BufferedImageState :=
  { input_scan_number := 0, input_iMCU_row := 0,
    output_scan_number := 0, output_iMCU_row := 0 }

/-- The invariant of the claim: the output side never gets ahead of the
input side. -/
def outputBehindInput (s : BufferedImageState) : Prop :=
  s.output_scan_number ≤ s.input_scan_number ∧
  (s.output_scan_number = s.input_scan_number →
    s.output_iMCU_row ≤ s.input_iMCU_row)

/-- Claim C5: in every reachable state of the buffered-image
decompressor, output_scan_number is at most input_scan_number, and when
both sides are in the same scan, output_iMCU_row is at most
input_iMCU_row: no operation advances the output counters past the
input counters. -/
theorem C5_output_never_precedes_input (s : BufferedImageState)
    (h : Relation.ReflTransGen BufStep bufInit s) :
    outputBehindInput s := by
  induction h with
  | refl => exact ⟨le_refl 0, fun _ => le_refl 0⟩
  | tail _ hstep ih =>
      cases hstep with
      | consume_row =>
          obtain ⟨h1, h2⟩ := ih
          exact ⟨h1, fun he => le_trans (h2 he) (Nat.le_succ _)⟩
      | consume_sos =>
          obtain ⟨h1, _⟩ := ih
          refine ⟨le_trans h1 (Nat.le_succ _), fun he => ?_⟩
          exfalso
          simp only [] at he
          omega
      | output_row hg =>
          obtain ⟨h1, h2⟩ := ih
          refine ⟨h1, fun he => ?_⟩
          simp only [] at he ⊢
          rcases hg with hlt | ⟨heq, hrow⟩
          · omega
          · omega
      | start_output k hk =>
          exact ⟨hk, fun _ => Nat.zero_le _⟩

/-- Witness for C5: the invariant holds at the initial state, reached
by the empty step sequence. -/
theorem C5_output_never_precedes_input_witness :
    outputBehindInput bufInit :=
  C5_output_never_precedes_input bufInit Relation.ReflTransGen.refl

/-! ## C6 and C9: scan controller bounds -/

/-- Sampling factors of one component, from jpeg_component_info
(jpeglib.h lines 125-126). -/
structure comp_samp where
  h_samp_factor : Nat
  v_samp_factor : Nat

/-- Modelled from the spec: the scan-descriptor validation of the
missing jdmarker.c get_sos and jcmaster.c validate_script code: the
number of components in a scan is between 1 and MAX_COMPS_IN_SCAN
(the component_index array of jpeg_scan_info has MAX_COMPS_IN_SCAN
entries, jpeglib.h line 194). -/
def validate_scan_comps (s : jpeg_scan_info) : Bool :=
  decide (1 ≤ s.component_index.length) &&
    decide (s.component_index.length ≤ MAX_COMPS_IN_SCAN)

/-- The MCU membership table: for each component of the scan in order,
its MCU_blocks = h_samp_factor * v_samp_factor block slots carry the
index of the owning component (jpeglib.h lines 672-675). -/
def MCU_membership_of : List comp_samp → Nat → List Nat
  | [], _ => []
  | c :: cs, i =>
      List.replicate (c.h_samp_factor * c.v_samp_factor) i ++
        MCU_membership_of cs (i + 1)

/-- Modelled from the spec: per_scan_setup of the missing jdinput.c and
jcmaster.c.  A single-component scan is non-interleaved with one block
per MCU; an interleaved scan takes MCU_blocks blocks of each component,
and a total exceeding D_MAX_BLOCKS_IN_MCU (= C_MAX_BLOCKS_IN_MCU = 10)
is a fatal format error, returned as none.  The result is
(blocks_in_MCU, MCU_membership, interleaved). -/
def per_scan_setup (comps : List comp_samp) :
    Option (Nat × List Nat × Bool) :=
  if comps.length = 1 then some (1, [0], false)
  else
    let blocks :=
      (comps.map (fun c => c.h_samp_factor * c.v_samp_factor)).sum
    if blocks ≤ D_MAX_BLOCKS_IN_MCU then
      some (blocks, MCU_membership_of comps 0, true)
    else none

/-- The per-scan fields of a compression or decompression struct
(jpeglib.h lines 433-443 and 665-675); is_decompressor tells the two
apart (jpeglib.h line 275). -/
structure ScanCtlState where
  is_decompressor : Bool
  comps_in_scan : Nat
  blocks_in_MCU : Nat
  MCU_membership : List Nat
  interleaved : Bool

/-- State before the first scan: a trivial single-component scan
layout. -/
def scanCtlInit (d : Bool) : ScanCtlState :=
  { is_decompressor := d, comps_in_scan := 1, blocks_in_MCU := 1,
    MCU_membership := [0], interleaved := false }

/-- Modelled from the spec: starting a scan (from an encode scan script
or a decode SOS marker) installs the per-scan fields, but only for a
descriptor that passes validation and whose per-MCU setup succeeds. -/
inductive ScanStep : ScanCtlState → ScanCtlState → Prop
  | start_scan (s : ScanCtlState) (info : jpeg_scan_info)
      (comps : List comp_samp) (blocks : Nat) (mem : List Nat)
      (inter : Bool)
      (hv : validate_scan_comps info = true)
      (hlen : comps.length = info.component_index.length)
      (hsetup : per_scan_setup comps = some (blocks, mem, inter)) :
      ScanStep s
        { s with comps_in_scan := info.component_index.length,
                 blocks_in_MCU := blocks,
                 MCU_membership := mem,
                 interleaved := inter }

lemma MCU_membership_of_length (comps : List comp_samp) (i : Nat) :
    (MCU_membership_of comps i).length
      = (comps.map (fun c => c.h_samp_factor * c.v_samp_factor)).sum := by
  induction comps generalizing i with
  | nil => rfl
  | cons c cs ih =>
      simp [MCU_membership_of, ih]

lemma MCU_membership_of_mem (comps : List comp_samp) (i : Nat) :
    ∀ x ∈ MCU_membership_of comps i, i ≤ x ∧ x < i + comps.length := by
  induction comps generalizing i with
  | nil => intro x hx; exact absurd hx (List.not_mem_nil x)
  | cons c cs ih =>
      intro x hx
      simp only [MCU_membership_of, List.mem_append,
        List.mem_replicate] at hx
      rcases hx with ⟨_, rfl⟩ | hx
      · refine ⟨le_refl x, ?_⟩
        simp only [List.length_cons]
        omega
      · have := ih (i + 1) x hx
        simp only [List.length_cons]
        omega

/-- The joint invariant of the per-scan fields. -/
def scanCtlInv (s : ScanCtlState) : Prop :=
  1 ≤ s.comps_in_scan ∧ s.comps_in_scan ≤ MAX_COMPS_IN_SCAN ∧
  (s.interleaved = false → s.comps_in_scan = 1) ∧
  s.blocks_in_MCU ≤ D_MAX_BLOCKS_IN_MCU ∧
  s.MCU_membership.length = s.blocks_in_MCU ∧
  ∀ x ∈ s.MCU_membership, x < s.comps_in_scan

lemma scanCtl_reachable_inv (d : Bool) (s : ScanCtlState)
    (h : Relation.ReflTransGen ScanStep (scanCtlInit d) s) :
    scanCtlInv s := by
  induction h with
  | refl =>
      refine ⟨le_refl 1, by simp [MAX_COMPS_IN_SCAN, scanCtlInit], fun _ => rfl,
        by simp [D_MAX_BLOCKS_IN_MCU, scanCtlInit], rfl, ?_⟩
      intro x hx
      simp only [scanCtlInit, List.mem_singleton] at hx
      simp [scanCtlInit, hx]
  | tail _ hstep ih =>
      cases hstep with
      | start_scan info comps blocks mem inter hv hlen hsetup =>
          simp only [validate_scan_comps, Bool.and_eq_true,
            decide_eq_true_eq] at hv
          unfold per_scan_setup at hsetup
          by_cases hone : comps.length = 1
          · rw [if_pos hone] at hsetup
            injection hsetup with hs
            injection hs with h1 hs2
            injection hs2 with h2 h3
            refine ⟨?_, ?_, ?_, ?_, ?_, ?_⟩
            · simp only []
              omega
            · exact hv.2
            · intro _
              simp only []
              omega
            · simp only [← h1, D_MAX_BLOCKS_IN_MCU]
              omega
            · simp only [← h1, ← h2]
              rfl
            · intro x hx
              simp only [← h2, List.mem_singleton] at hx
              simp only [hx]
              omega
          · rw [if_neg hone] at hsetup
            simp only [] at hsetup
            by_cases hbl :
                (comps.map
                  (fun c => c.h_samp_factor * c.v_samp_factor)).sum
                  ≤ D_MAX_BLOCKS_IN_MCU
            · rw [if_pos hbl] at hsetup
              injection hsetup with hs
              injection hs with h1 hs2
              injection hs2 with h2 h3
              refine ⟨?_, ?_, ?_, ?_, ?_, ?_⟩
              · simp only []
                omega
              · exact hv.2
              · intro hint
                simp only [] at hint
                rw [← h3] at hint
                exact absurd hint (by simp)
              · simp only [← h1]
                exact hbl
              · simp only [← h1, ← h2]
                exact MCU_membership_of_length comps 0
              · intro x hx
                simp only [← h2] at hx
                have := (MCU_membership_of_mem comps 0 x hx).2
                simp only []
                omega
            · rw [if_neg hbl] at hsetup
              exact absurd hsetup (by simp)

/-- Claim C6: in every reachable state of the compression or
decompression struct, the scan accepted by the scan controller has
between 1 and MAX_COMPS_IN_SCAN = 4 participating components, and a
non-interleaved scan has exactly one component. -/
theorem C6_comps_in_scan_bound (d : Bool) (s : ScanCtlState)
    (h : Relation.ReflTransGen ScanStep (scanCtlInit d) s) :
    1 ≤ s.comps_in_scan ∧ s.comps_in_scan ≤ MAX_COMPS_IN_SCAN ∧
    (s.interleaved = false → s.comps_in_scan = 1) := by
  obtain ⟨h1, h2, h3, _, _, _⟩ := scanCtl_reachable_inv d s h
  exact ⟨h1, h2, h3⟩

/-- Witness for C6: the invariant at the initial decompressor state,
reached by the empty step sequence. -/
theorem C6_comps_in_scan_bound_witness :
    1 ≤ (scanCtlInit true).comps_in_scan ∧
    (scanCtlInit true).comps_in_scan ≤ MAX_COMPS_IN_SCAN ∧
    ((scanCtlInit true).interleaved = false →
      (scanCtlInit true).comps_in_scan = 1) :=
  C6_comps_in_scan_bound true (scanCtlInit true) Relation.ReflTransGen.refl

/-- Claim C9 (implicit in the spec): in every reachable state of a
compression or decompression struct, blocks_in_MCU is at most
C_MAX_BLOCKS_IN_MCU = D_MAX_BLOCKS_IN_MCU = 10, so every index into the
MCU_membership table is within bounds 0..9, and every entry of the
table is a valid index into cur_comp_info. -/
theorem C9_blocks_in_MCU_bound (d : Bool) (s : ScanCtlState)
    (h : Relation.ReflTransGen ScanStep (scanCtlInit d) s) :
    s.blocks_in_MCU ≤ C_MAX_BLOCKS_IN_MCU ∧
    s.blocks_in_MCU ≤ D_MAX_BLOCKS_IN_MCU ∧
    s.MCU_membership.length = s.blocks_in_MCU ∧
    (∀ i, i < s.blocks_in_MCU → i < 10) ∧
    ∀ x ∈ s.MCU_membership, x < s.comps_in_scan := by
  obtain ⟨_, _, _, h4, h5, h6⟩ := scanCtl_reachable_inv d s h
  refine ⟨?_, h4, h5, ?_, h6⟩
  · simpa [C_MAX_BLOCKS_IN_MCU, D_MAX_BLOCKS_IN_MCU] using h4
  · intro i hi
    have : s.blocks_in_MCU ≤ 10 := by
      simpa [D_MAX_BLOCKS_IN_MCU] using h4
    omega

/-- Witness for C9: the invariant at the initial compressor state,
reached by the empty step sequence. -/
theorem C9_blocks_in_MCU_bound_witness :
    (scanCtlInit false).blocks_in_MCU ≤ C_MAX_BLOCKS_IN_MCU ∧
    (scanCtlInit false).blocks_in_MCU ≤ D_MAX_BLOCKS_IN_MCU ∧
    (scanCtlInit false).MCU_membership.length
      = (scanCtlInit false).blocks_in_MCU ∧
    (∀ i, i < (scanCtlInit false).blocks_in_MCU → i < 10) ∧
    ∀ x ∈ (scanCtlInit false).MCU_membership,
      x < (scanCtlInit false).comps_in_scan :=
  C9_blocks_in_MCU_bound false (scanCtlInit false)
    Relation.ReflTransGen.refl

/-! ## C7: jpeg_abort frees the image pool and keeps the permanent pool -/

/-- Modelled from the spec: the pooled allocation state of the missing
jmemmgr.c: every allocation (quantization/Huffman tables, virtual
arrays, scan state) is tagged with the pool it was assigned to,
JPOOL_PERMANENT = 0 or JPOOL_IMAGE = 1 (jpeglib.h lines 825-827);
objects are never freed individually, only per pool. -/
def free_pool {α : Type} (mem : List (Nat × α)) (pool_id : Nat) :
    List (Nat × α) :=
  mem.filter (fun a => decide (a.1 ≠ pool_id))

/-- Modelled from the spec: jpeg_abort of the missing jcomapi.c
(declared at jpeglib.h line 1016, with jpeg_abort_compress and
jpeg_abort_decompress delegating to it): it releases every pool except
the permanent one, that is, exactly JPOOL_IMAGE. -/
def jpeg_abort {α : Type} (mem : List (Nat × α)) : List (Nat × α) :=
  free_pool mem JPOOL_IMAGE

lemma filter_free_pool {α : Type} (mem : List (Nat × α)) (p q : Nat)
    (hpq : p ≠ q) :
    (free_pool mem q).filter (fun a => decide (a.1 = p))
      = mem.filter (fun a => decide (a.1 = p)) := by
  unfold free_pool
  rw [List.filter_filter]
  congr 1
  funext a
  by_cases hp2 : a.1 = p
  · have hq2 : ¬ a.1 = q := by omega
    simp [hp2, hq2, hpq]
  · simp [hp2]

/-- Claim C7: aborting mid-datastream removes every allocation of the
per-datastream pool (JPOOL_IMAGE) and leaves the per-instance pool
(JPOOL_PERMANENT, holding tables and configuration) unchanged: the
permanent allocations after jpeg_abort are exactly those before, and
each permanent allocation (e.g. a table) survives for reuse on a new
datastream. -/
theorem C7_abort_frees_image_keeps_permanent {α : Type}
    (mem : List (Nat × α)) :
    (∀ a ∈ jpeg_abort mem, a.1 ≠ JPOOL_IMAGE) ∧
    (jpeg_abort mem).filter (fun a => decide (a.1 = JPOOL_PERMANENT))
      = mem.filter (fun a => decide (a.1 = JPOOL_PERMANENT)) ∧
    (∀ a ∈ mem, a.1 = JPOOL_PERMANENT → a ∈ jpeg_abort mem) := by
  refine ⟨?_, ?_, ?_⟩
  · intro a ha
    unfold jpeg_abort free_pool at ha
    have := (List.mem_filter.mp ha).2
    simpa using this
  · exact filter_free_pool mem JPOOL_PERMANENT JPOOL_IMAGE
      (by simp [JPOOL_PERMANENT, JPOOL_IMAGE])
  · intro a ha hperm
    unfold jpeg_abort free_pool
    refine List.mem_filter.mpr ⟨ha, ?_⟩
    simp only [decide_eq_true_eq]
    simp only [JPOOL_PERMANENT] at hperm
    simp [JPOOL_IMAGE, hperm]

/-- Witness for C7 on a concrete pool state: a table in the permanent
pool and a virtual array in the image pool; after jpeg_abort the table
is still there. -/
theorem C7_abort_frees_image_keeps_permanent_witness :
    ((0, 17) : Nat × Nat) ∈ ([(0, 17), (1, 5)] : List (Nat × Nat)) ∧
    (0, 17).1 = JPOOL_PERMANENT ∧
    ((0, 17) : Nat × Nat) ∈ jpeg_abort ([(0, 17), (1, 5)] : List (Nat × Nat)) :=
  ⟨by decide, by decide,
   (C7_abort_frees_image_keeps_permanent
       ([(0, 17), (1, 5)] : List (Nat × Nat))).2.2
     (0, 17) (by decide) (by decide)⟩

/-! ## C8: recoverable corrupt-data warnings -/

def JPEG_RST0 : Nat := 0xD0

/-- Modelled from the spec: the restart-marker processing loop of the
missing jdmarker.c (read_restart_marker / jpeg_resync_to_restart,
declared at jpeglib.h line 1020).  Interval i expects marker
RST(i mod 8); a mismatched or missing marker is a recoverable
corrupt-data condition: the warning counter num_warnings (jpeglib.h
lines 747-753) is incremented and processing resynchronizes and
continues with the next interval, never aborting.  The result is the
final warning count and the number of intervals processed. -/
def process_restarts : List Nat → Nat → Nat → Nat × Nat
  | [], _, w => (w, 0)
  | m :: ms, i, w =>
      let w2 := if m = JPEG_RST0 + i % 8 then w else w + 1
      let r := process_restarts ms (i + 1) w2
      (r.1, r.2 + 1)

/-- The number of corrupted restart markers in the stream, starting the
cyclic counter at i. -/
def corrupt_count : List Nat → Nat → Nat
  | [], _ => 0
  | m :: ms, i =>
      (if m = JPEG_RST0 + i % 8 then 0 else 1) + corrupt_count ms (i + 1)

lemma process_restarts_spec (ms : List Nat) :
    ∀ i w, process_restarts ms i w = (w + corrupt_count ms i, ms.length) := by
  induction ms with
  | nil => intro i w; simp [process_restarts, corrupt_count]
  | cons m ms ih =>
      intro i w
      simp only [process_restarts, corrupt_count, ih, List.length_cons]
      by_cases h : m = JPEG_RST0 + i % 8
      · simp [h]
      · simp [h]
        omega

/-- Claim C8: every recoverable corrupt-data condition increments the
cumulative warning counter and processing continues rather than
aborting: every restart interval of the stream is processed and the
final num_warnings equals the number of corrupted restart markers; in
particular a stream containing exactly one corrupted restart marker
finishes completely with num_warnings = 1. -/
theorem C8_corrupt_restart_warning (ms : List Nat)
    (h : corrupt_count ms 0 = 1) :
    (process_restarts ms 0 0).1 = 1 ∧
    (process_restarts ms 0 0).2 = ms.length := by
  rw [process_restarts_spec ms 0 0]
  exact ⟨by omega, rfl⟩

/-- Witness for C8: a three-interval stream whose second restart marker
is corrupted (0x00 instead of RST1 = 0xD1). -/
theorem C8_corrupt_restart_warning_witness :
    corrupt_count [0xD0, 0x00, 0xD2] 0 = 1 ∧
    ((process_restarts [0xD0, 0x00, 0xD2] 0 0).1 = 1 ∧
     (process_restarts [0xD0, 0x00, 0xD2] 0 0).2
       = ([0xD0, 0x00, 0xD2] : List Nat).length) :=
  ⟨by decide, C8_corrupt_restart_warning [0xD0, 0x00, 0xD2] (by decide)⟩

/-! ## C10: jpeg_read_header with require_image -/

/-- The outcomes of consuming the datastream up to the first SOS or EOI
marker (jpeg_consume_input, jpeglib.h lines 979-985). -/
inductive ConsumeResult where
  | reached_sos : ConsumeResult
  | reached_eoi : ConsumeResult
  | suspended : ConsumeResult

/-- Modelled from the spec: jpeg_read_header of the missing jdapimin.c,
following its documented contract (jpeglib.h lines 952-961): reaching
SOS yields JPEG_HEADER_OK, suspension yields JPEG_SUSPENDED, and
reaching EOI first (a valid tables-only datastream) is a fatal error
exit when require_image is TRUE, else JPEG_HEADER_TABLES_ONLY. -/
def jpeg_read_header (require_image : Bool) (r : ConsumeResult) :
    Except Unit Nat :=
  match r with
  | .reached_sos => .ok JPEG_HEADER_OK
  | .reached_eoi =>
      if require_image then .error () else .ok JPEG_HEADER_TABLES_ONLY
  | .suspended => .ok JPEG_SUSPENDED

/-- Claim C10: with require_image = TRUE, jpeg_read_header never
returns JPEG_HEADER_TABLES_ONLY: a tables-only datastream causes an
error exit, so a caller need only distinguish JPEG_SUSPENDED from
JPEG_HEADER_OK among normal returns. -/
theorem C10_require_image_no_tables_only (r : ConsumeResult) :
    jpeg_read_header true r ≠ Except.ok JPEG_HEADER_TABLES_ONLY ∧
    (jpeg_read_header true r = Except.ok JPEG_SUSPENDED ∨
     jpeg_read_header true r = Except.ok JPEG_HEADER_OK ∨
     jpeg_read_header true r = Except.error ()) := by
  cases r <;>
    simp [jpeg_read_header, JPEG_HEADER_TABLES_ONLY, JPEG_HEADER_OK,
      JPEG_SUSPENDED]

end JpegLib
